import Mathlib

/-!
Verification of the job-posting metadata extraction core of `app.py`
(`extract_job_metadata`, `_is_platform_part`, `PLATFORM_DOMAINS`,
`_PLATFORM_NAMES_LOWER`, around lines 618-724 of `src/app.py`).

Strings are modelled as Lean `String` / `List Char` (Python `str` is a
sequence of Unicode code points, as is `List Char`).  The regular
expressions appearing in the source are small and fixed, so each one is
embedded as a recursive function that follows Python `re`'s leftmost /
lazy / greedy backtracking preference order exactly; the derivation of
each function from its regex is documented at the definition.

Scope notes on library functions used by the source:
* `urllib.parse.urlparse` is modelled by `urlparseNetloc` (only `.netloc`
  is consumed by the code).  The model covers scheme stripping, the
  `//`-prefixed netloc extraction, removal of the unsafe bytes
  `\t\r\n`, and all three `ValueError` paths of `urlsplit` as of
  current CPython (3.11+): the unbalanced-square-bracket check ("Invalid
  IPv6 URL", present in every version), `_check_bracketed_host`
  (validation of a bracketed host as an IPv6 or IPvFuture address, added
  in 3.11; older interpreters accept any balanced bracketed text, so
  the model's no-error region is contained in every version's), and
  `_checknetloc` (the NFKC netloc validation present since 3.7.3, which
  raises exactly when the netloc is non-ASCII and contains a code point
  whose NFKC normalization produces one of `/?#@:` — a fixed finite set
  of nineteen code points, enumerated in `nfkcSpecial`).
* `str.lower()` is modelled on the ASCII range (all registry data and
  platform names in the source are ASCII).
* `str.strip()` and the regex class `\s` use Python's Unicode whitespace
  set, modelled by `pyIsSpace`.
-/

/-- Python's whitespace set, as used by `str.strip()` with no argument and
by the regex class `\s` on `str` patterns: ASCII whitespace, the C1
separators `\x1c`-`\x1f`, `\x85`, and the Unicode `White_Space` code
points. -/
def pyIsSpace (c : Char) : Bool :=
  c == ' ' || c == '\t' || c == '\n' || c == '\x0b' || c == '\x0c' || c == '\r' ||
  c == '\x1c' || c == '\x1d' || c == '\x1e' || c == '\x1f' || c == '\x85' || c == '\xa0' ||
  c == ' ' || decide (0x2000 ≤ c.toNat ∧ c.toNat ≤ 0x200a) ||
  c == ' ' || c == ' ' || c == ' ' || c == ' ' || c == '　'

/-- Python `str.lower()`, character-wise (ASCII case mapping; see scope
notes in the module docstring). -/
def pyLowerChar (c : Char) : Char :=
  if 0x41 ≤ c.toNat ∧ c.toNat ≤ 0x5a then Char.ofNat (c.toNat + 0x20) else c

/-- `str.lower()` over a code-point list. -/
def pyLowerL (l : List Char) : List Char := l.map pyLowerChar

/-- `pat` is a prefix of `l` (used for literal matching inside the
embedded regexes and for Python's substring test). -/
def startsWithL : List Char → List Char → Bool
  | [], _ => true
  | _ :: _, [] => false
  | p :: ps, c :: cs => p == c && startsWithL ps cs

/-- Python's substring test `pat in l`: `pat` occurs contiguously in `l`
(the empty pattern occurs in every string). -/
def occursIn (pat : List Char) : List Char → Bool
  | [] => pat.isEmpty
  | c :: t => startsWithL pat (c :: t) || occursIn pat t

/-- Right strip: drop trailing `pyIsSpace` characters. -/
def rdropL (l : List Char) : List Char := (l.reverse.dropWhile pyIsSpace).reverse

/-- Python `str.strip()` with no argument: drop leading and trailing
whitespace. -/
def stripL (l : List Char) : List Char := rdropL (l.dropWhile pyIsSpace)

/-- `str.strip()` returning a `String`. -/
def pyStrip (l : List Char) : String := String.mk (stripL l)

/-- One scanning pass of Python `re.split` for a separator regex of the
fixed shape `\s* SEP \s*` where `SEP` is a single-character class
(`[-–]` or `\|` in the source).  An attempt of this separator pattern at
a position succeeds exactly when the first non-whitespace character at
or after that position is a `SEP` character (the greedy `\s*` must end
exactly where the non-whitespace character stands, since `SEP`
characters are not whitespace); `re.split` takes the leftmost such
attempt, consumes the greedy match (surrounding whitespace included) and
continues after it.  The scan carries:
`budget` = remaining allowed splits (`none` = unlimited, Python
`maxsplit=0`); `afterSep` = currently consuming the trailing `\s*` of a
just-matched separator (such whitespace is discarded); `buf` = pending
whitespace (reversed) that belongs to the next separator if one follows,
and to the current segment otherwise; `acc` = current segment
(reversed). -/
def splitRun (isSep : Char → Bool) :
    Option Nat → Bool → List Char → List Char → List Char → List (List Char)
  | _, _, buf, acc, [] => [acc.reverse ++ buf.reverse]
  | budget, afterSep, buf, acc, c :: t =>
    if pyIsSpace c then
      if afterSep then splitRun isSep budget true [] [] t
      else splitRun isSep budget false (c :: buf) acc t
    else if isSep c && !(budget == some 0) then
      acc.reverse :: splitRun isSep (budget.map Nat.pred) true [] [] t
    else splitRun isSep budget false [] (c :: (buf ++ acc)) t

/-- The separator class `\|`. -/
def isPipe (c : Char) : Bool := c == '|'

/-- The separator class `[-–]` (hyphen-minus and en dash). -/
def isDash (c : Char) : Bool := c == '-' || c == '–'

/-- `re.split(r"\s*\|\s*", title)` (no `maxsplit`). -/
def reSplitPipe (l : List Char) : List (List Char) := splitRun isPipe none false [] [] l

/-- `re.split(r"\s*[-–]\s*", title)` (no `maxsplit`). -/
def reSplitDashAll (l : List Char) : List (List Char) := splitRun isDash none false [] [] l

/-- `re.split(r"\s*[-–]\s*", main, maxsplit=1)`. -/
def reSplitDash1 (l : List Char) : List (List Char) := splitRun isDash (some 1) false [] [] l

example : reSplitDashAll "Data Analyst - Beta LLC - Austin, TX".data =
    ["Data Analyst".data, "Beta LLC".data, "Austin, TX".data] := by decide

example : reSplitDash1 "a - b - c".data = ["a".data, "b - c".data] := by decide

example : reSplitPipe "a | b".data = ["a".data, "b".data] := by decide

example : reSplitPipe "".data = [[]] := by decide

/-!
## The two `re.match` patterns

The source (lines 675-691) uses two anchored patterns of the common shape
`^(.+?)\s+WORD\s+(.+?)(?:ALT)`:

* LinkedIn : `^(.+?)\s+at\s+(.+?)(?:\s*\||\s*[-–]|\s*$)`
* Glassdoor: `^(.+?)\s+hiring\s+(.+?)(?:\s+in\s+|\s*\|)`

Both are embedded by `lazyMatch word alt`, which reproduces the
backtracking preference order: group 1 `(.+?)` is lazy (shortest first,
`.` never matches a newline); `\s+` before `WORD` is greedy, and since
`WORD` starts with a non-whitespace letter while the run consists of
whitespace, the only viable amount is the whole maximal run; `\s+` after
`WORD` is greedy with genuine backtracking (`wsBack` tries the longest
amount of whitespace first, down to one character); group 2 `(.+?)` is
lazy and stops at the first position where the trailing alternation
`ALT` matches.  The alternations only gate where group 2 may stop, so
they are embedded as Boolean tests. -/

/-- The LinkedIn trailing alternation `(?:\s*\||\s*[-–]|\s*$)` as a test
at a position: the first non-whitespace character from here is `|`, `-`
or `–` (the greedy `\s*` must stop exactly at it), or — for `\s*$`,
where `$` matches at the end or just before a terminating newline — the
whole remainder is whitespace. -/
def liAlt (s : List Char) : Bool :=
  ((s.dropWhile pyIsSpace).head?.elim false (fun c => c == '|' || c == '-' || c == '–')) ||
    s.all pyIsSpace

/-- The Glassdoor trailing alternation `(?:\s+in\s+|\s*\|)` as a test at
a position: either at least one whitespace character, then the literal
`in` (necessarily at the end of the whitespace run), then at least one
further whitespace character; or the first non-whitespace character is
`|`. -/
def gdAlt (s : List Char) : Bool :=
  (!(s.takeWhile pyIsSpace).isEmpty &&
    (startsWithL ['i', 'n'] (s.dropWhile pyIsSpace) &&
      ((s.dropWhile pyIsSpace).drop 2).head?.elim false pyIsSpace)) ||
  ((s.dropWhile pyIsSpace).head?.elim false (fun c => c == '|'))

/-- Group 2 `(.+?)` followed by the alternation `alt`: lazy, so the
shortest nonempty prefix (of non-newline characters) after which `alt`
holds is taken. -/
def lazyG2 (alt : List Char → Bool) : List Char → Option (List Char)
  | [] => none
  | c :: t =>
    if c = '\n' then none
    else if alt t then some [c]
    else
      match lazyG2 alt t with
      | some g => some (c :: g)
      | none => none

/-- The `\s+` after `WORD`, greedy with backtracking: try consuming `m`
whitespace characters (`m` starts at the length of the maximal
whitespace run), then group 2; on failure retry with one fewer, down to
one. -/
def wsBack (alt : List Char → Bool) : Nat → List Char → Option (List Char)
  | 0, _ => none
  | m + 1, r =>
    match lazyG2 alt (r.drop (m + 1)) with
    | some g => some g
    | none => wsBack alt m r

/-- The part of the pattern after group 1, `\s+WORD\s+(.+?)(?:ALT)`,
anchored at `s`: a nonempty whitespace run, the literal `word` (which
must sit exactly at the end of the run), then `wsBack`. -/
def afterWord (word : List Char) (alt : List Char → Bool) (s : List Char) : Option (List Char) :=
  if (s.takeWhile pyIsSpace).isEmpty then none
  else
    let r := s.dropWhile pyIsSpace
    if startsWithL word r then
      let r2 := r.drop word.length
      wsBack alt (r2.takeWhile pyIsSpace).length r2
    else none

/-- `re.match(r"^(.+?)\s+WORD\s+(.+?)(?:ALT)", title)`: group 1 is lazy,
so the shortest nonempty prefix of non-newline characters whose
continuation matches wins; returns `(group 1, group 2)`. -/
def lazyMatch (word : List Char) (alt : List Char → Bool) :
    List Char → Option (List Char × List Char)
  | [] => none
  | c :: t =>
    if c = '\n' then none
    else
      match afterWord word alt t with
      | some g2 => some ([c], g2)
      | none =>
        match lazyMatch word alt t with
        | some (g1, g2) => some (c :: g1, g2)
        | none => none

/-- `re.match(r"^(.+?)\s+at\s+(.+?)(?:\s*\||\s*[-–]|\s*$)", title)`
(app.py line 676). -/
def liMatch (l : List Char) : Option (List Char × List Char) := lazyMatch ['a', 't'] liAlt l

/-- `re.match(r"^(.+?)\s+hiring\s+(.+?)(?:\s+in\s+|\s*\|)", title)`
(app.py line 686). -/
def gdMatch (l : List Char) : Option (List Char × List Char) :=
  lazyMatch ['h', 'i', 'r', 'i', 'n', 'g'] gdAlt l

example : liMatch "Senior Backend Engineer at Acme Corp | LinkedIn".data =
    some ("Senior Backend Engineer".data, "Acme Corp".data) := by decide

example : liMatch "A at B at C | LinkedIn".data = some ("A".data, "B at C".data) := by decide

example : liMatch " x at - y | L".data = some (" x".data, "- y".data) := by decide

example : liMatch "no match here".data = none := by decide

example : gdMatch "Gamma Inc hiring Product Manager in Seattle, WA | Glassdoor".data =
    some ("Gamma Inc".data, "Product Manager".data) := by decide

/-!
## `urllib.parse.urlparse(url).netloc`

The code consumes only `parsed.netloc`.  CPython's `urlsplit`: remove
the unsafe bytes tab/CR/LF; if the text up to the first `:` is a valid
scheme (first character an ASCII letter, all characters
letters/digits/`+`/`-`/`.`, colon not at position 0), drop it; if the
remainder starts with `//`, the netloc is everything up to the next
`/`, `?` or `#` (otherwise the netloc is empty); a netloc containing
`[` without `]` or `]` without `[` raises `ValueError("Invalid IPv6
URL")`. -/

/-- ASCII letter test (`url[0].isascii() and url[0].isalpha()`). -/
def isAsciiAlpha (c : Char) : Bool :=
  decide ((0x41 ≤ c.toNat ∧ c.toNat ≤ 0x5a) ∨ (0x61 ≤ c.toNat ∧ c.toNat ≤ 0x7a))

/-- Characters allowed in a URL scheme
(`scheme_chars = letters + digits + '+-.'`). -/
def isSchemeChar (c : Char) : Bool :=
  isAsciiAlpha c || decide (0x30 ≤ c.toNat ∧ c.toNat ≤ 0x39) || c == '+' || c == '-' || c == '.'

/-- Removal of `_UNSAFE_URL_BYTES_TO_REMOVE = ["\t", "\r", "\n"]`. -/
def removeUnsafe (l : List Char) : List Char :=
  l.filter (fun c => !(c == '\t' || c == '\r' || c == '\n'))

/-- Split at the first `:`: returns `(text before, text after)` when a
colon is present. -/
def splitColon : List Char → Option (List Char × List Char)
  | [] => none
  | c :: t =>
    if c = ':' then some ([], t)
    else (splitColon t).map (fun p => (c :: p.1, p.2))

/-- Drop a leading `scheme:` when the text up to the first colon is a
nonempty valid scheme starting with an ASCII letter. -/
def stripScheme (l : List Char) : List Char :=
  match splitColon l with
  | some (before, after) =>
    if !before.isEmpty && before.all isSchemeChar &&
        before.head?.elim false isAsciiAlpha then after
    else l
  | none => l

/-- The netloc text `urlsplit` extracts (empty when the URL, after
scheme stripping, does not start with `//`).  Total. -/
def rawNetloc (url : String) : List Char :=
  match stripScheme (removeUnsafe url.data) with
  | '/' :: '/' :: rest => rest.takeWhile (fun c => !(c == '/' || c == '?' || c == '#'))
  | _ => []

/-- The unbalanced-square-bracket condition on which `urlsplit` raises
`ValueError("Invalid IPv6 URL")`. -/
def badBrackets (n : List Char) : Bool :=
  (n.any (· == '[') && !n.any (· == ']')) || (n.any (· == ']') && !n.any (· == '['))

/-- ASCII code point (`str.isascii()`). -/
def isAsciiChar (c : Char) : Bool := decide (c.toNat ≤ 0x7f)

/-- The nineteen code points whose NFKC normalization contains one of
`/?#@:` (Unicode compatibility mappings such as U+2100 `℀` → `a/c` or
U+FF1A `：` → `:`).  `_checknetloc` raises exactly when a non-ASCII
netloc contains one of them: those characters cannot already be the
plain `/?#@:` (removed or excluded from a netloc), compatibility
decompositions are per-code-point, and canonical composition never
creates ASCII punctuation. -/
def nfkcSpecial (c : Char) : Bool :=
  [0x2047, 0x2048, 0x2049, 0x2100, 0x2101, 0x2105, 0x2106, 0x2a74,
   0xfe13, 0xfe16, 0xfe55, 0xfe56, 0xfe5f, 0xfe6b,
   0xff03, 0xff0f, 0xff1a, 0xff1f, 0xff20].contains c.toNat

/-- `_checknetloc`: raise for a non-ASCII netloc whose NFKC
normalization would introduce one of `/?#@:`. -/
def checknetlocRaises (n : List Char) : Bool :=
  !(n.all isAsciiChar) && n.any nfkcSpecial

/-- ASCII decimal digit. -/
def isDigitChar (c : Char) : Bool := decide (0x30 ≤ c.toNat ∧ c.toNat ≤ 0x39)

/-- Hexadecimal digit (`ipaddress._HEX_DIGITS` and the IPvFuture class
`[a-fA-F0-9]`). -/
def isHexChar (c : Char) : Bool :=
  isDigitChar c || decide (0x61 ≤ c.toNat ∧ c.toNat ≤ 0x66) ||
    decide (0x41 ≤ c.toNat ∧ c.toNat ≤ 0x46)

/-- Decimal value of a digit string. -/
def digitsVal (s : List Char) : Nat := s.foldl (fun a c => a * 10 + (c.toNat - 0x30)) 0

/-- Python `str.split(sep)` for a single-character separator (no
collapsing; the empty string splits to `[""]`). -/
def splitOnChar (sep : Char) : List Char → List (List Char)
  | [] => [[]]
  | c :: t =>
    if c = sep then [] :: splitOnChar sep t
    else
      match splitOnChar sep t with
      | h :: r => (c :: h) :: r
      | [] => [[c]]

/-- `ipaddress._parse_octet`: one to three ASCII digits, no leading
zero unless the octet is exactly `0`, value at most 255. -/
def validOctet (s : List Char) : Bool :=
  !s.isEmpty && decide (s.length ≤ 3) && s.all isDigitChar &&
    (s == ['0'] || s.head?.elim false (fun c => !(c == '0'))) && decide (digitsVal s ≤ 255)

/-- Textual IPv4 address validity (`ipaddress.IPv4Address`): exactly
four valid octets separated by dots. -/
def validIPv4 (s : List Char) : Bool :=
  let parts := splitOnChar '.' s
  parts.length == 4 && parts.all validOctet

/-- `ipaddress._parse_hextet`: one to four hexadecimal digits. -/
def validHextet (s : List Char) : Bool :=
  !s.isEmpty && decide (s.length ≤ 4) && s.all isHexChar

/-- The hextet-list stage of `ipaddress.IPv6Address._ip_int_from_string`:
at most nine parts, at most one interior empty part (the `::`), a
leading or trailing empty part only next to the `::`, at most seven
explicit hextets beside a `::` and exactly eight without one. -/
def validIPv6Parts (parts : List (List Char)) : Bool :=
  let n := parts.length
  if decide (9 < n) then false
  else
    match (List.range n).filter
        (fun i => decide (1 ≤ i) && decide (i + 1 < n) && (parts.getD i ['x']).isEmpty) with
    | [] => parts.length == 8 && parts.all validHextet
    | [i] =>
      let hOpt : Option Nat :=
        if (parts.headD ['x']).isEmpty then (if i == 1 then some 0 else none) else some i
      let lOpt : Option Nat :=
        if (parts.getLastD ['x']).isEmpty then (if i + 2 == n then some 0 else none)
        else some (n - i - 1)
      match hOpt, lOpt with
      | some h, some l =>
        decide (h + l ≤ 7) && (parts.take h).all validHextet &&
          (parts.drop (n - l)).all validHextet
      | _, _ => false
    | _ => false

/-- Textual IPv6 address validity without a scope id: split on `:`
(at least three parts), convert a dotted-quad final part to two hextet
slots, then `validIPv6Parts`. -/
def validIPv6Core (s : List Char) : Bool :=
  let parts := splitOnChar ':' s
  if decide (parts.length < 3) then false
  else if parts.getLastD ['x'] |>.any (· == '.') then
    (validIPv4 (parts.getLastD ['x']) &&
      validIPv6Parts (parts.dropLast ++ [['0'], ['0']]))
  else validIPv6Parts parts

/-- `ipaddress.IPv6Address` including `_split_scope_id`: an optional
`%scope` suffix whose scope id is nonempty and `%`-free. -/
def validIPv6 (s : List Char) : Bool :=
  match s.dropWhile (fun c => !(c == '%')) with
  | [] => validIPv6Core s
  | _ :: scope =>
    !scope.isEmpty && !(scope.any (· == '%')) &&
      validIPv6Core (s.takeWhile (fun c => !(c == '%')))

/-- The IPvFuture check `re.match(r"\Av[a-fA-F0-9]+\..+\Z", h)`: a
lowercase `v`, a nonempty run of hexadecimal digits, a dot, and a
nonempty newline-free remainder. -/
def validIPvFuture (h : List Char) : Bool :=
  match h with
  | 'v' :: rest =>
    let hex := rest.takeWhile isHexChar
    !hex.isEmpty &&
      (match rest.drop hex.length with
       | '.' :: tail => !tail.isEmpty && tail.all (fun c => !(c == '\n'))
       | _ => false)
  | _ => false

/-- `netloc.partition('[')[2].partition(']')[0]`: the text between the
first `[` and the next `]`. -/
def bracketedHost (n : List Char) : List Char :=
  ((n.dropWhile (fun c => !(c == '['))).drop 1).takeWhile (fun c => !(c == ']'))

/-- `_check_bracketed_host` (CPython 3.11+): a host in brackets must be
an IPvFuture address when it starts with `v`, and otherwise a valid
IPv6 address (a bracketed IPv4 address, or anything else, raises). -/
def validBracketedHost (h : List Char) : Bool :=
  match h with
  | 'v' :: _ => validIPvFuture h
  | _ => validIPv6 h

/-- The `ValueError` raised by `urlparse` on a given netloc, if any:
the unbalanced-bracket check, then the bracketed-host validation (run
when `[` and `]` are both present; after the first check, `[` present
implies `]` present), then the NFKC netloc check. -/
def urlparseError (n : List Char) : Option String :=
  if badBrackets n then some "Invalid IPv6 URL"
  else if n.any (· == '[') && !validBracketedHost (bracketedHost n) then
    some "ValueError: bracketed host is not an IPv6 or IPvFuture address"
  else if checknetlocRaises n then
    some "ValueError: netloc contains invalid characters under NFKC normalization"
  else none

/-- `urlparse(url).netloc`, with the `ValueError` modelled as `.error`. -/
def urlparseNetloc (url : String) : Except String String :=
  match urlparseError (rawNetloc url) with
  | some e => Except.error e
  | none => Except.ok (String.mk (rawNetloc url))

example : urlparseNetloc "https://www.linkedin.com/jobs/view/123" = .ok "www.linkedin.com" :=
  rfl

example : urlparseNetloc "not a url" = .ok "" := rfl

example : urlparseNetloc "http://[" = .error "Invalid IPv6 URL" := rfl

example : urlparseNetloc "https://user@host.com:8080/x?q#f" = .ok "user@host.com:8080" := rfl

example : urlparseNetloc "http://[::1]:8080/x" = .ok "[::1]:8080" := rfl

example : urlparseNetloc "http://[::ffff:1.2.3.4]" = .ok "[::ffff:1.2.3.4]" := rfl

example : urlparseNetloc "http://[fe80::1%25eth0]" = .ok "[fe80::1%25eth0]" := rfl

example : urlparseNetloc "http://[v1.fe]" = .ok "[v1.fe]" := rfl

example : urlparseNetloc "http://[abc]" =
    .error "ValueError: bracketed host is not an IPv6 or IPvFuture address" := rfl

example : urlparseNetloc "http://[1.2.3.4]" =
    .error "ValueError: bracketed host is not an IPv6 or IPvFuture address" := rfl

example : urlparseNetloc "http://[::ffff:01.2.3.4]" =
    .error "ValueError: bracketed host is not an IPv6 or IPvFuture address" := rfl

example : urlparseNetloc "http://\u2100" =
    .error "ValueError: netloc contains invalid characters under NFKC normalization" := rfl

example : urlparseNetloc "http://b\u00fccher.de" = .ok "b\u00fccher.de" := rfl


/-!
## The platform registry and the extractor (app.py lines 618-724)
-/

/-- `PLATFORM_DOMAINS` (app.py lines 618-636).  A Python `dict` iterates
in insertion order, so the registry is an ordered association list; the
authored order below is the authored order of the source. -/
def PLATFORM_DOMAINS : List (String × String) :=
  [("linkedin.com", "LinkedIn"),
   ("indeed.com", "Indeed"),
   ("glassdoor.com", "Glassdoor"),
   ("ziprecruiter.com", "ZipRecruiter"),
   ("monster.com", "Monster"),
   ("dice.com", "Dice"),
   ("lever.co", "Lever"),
   ("greenhouse.io", "Greenhouse"),
   ("workday.com", "Workday"),
   ("myworkdayjobs.com", "Workday"),
   ("smartrecruiters.com", "SmartRecruiters"),
   ("angel.co", "AngelList"),
   ("wellfound.com", "Wellfound"),
   ("builtin.com", "Built In"),
   ("simplyhired.com", "SimplyHired"),
   ("careerbuilder.com", "CareerBuilder"),
   ("welcometothejungle.com", "Welcome to the Jungle")]

/-- `_PLATFORM_NAMES_LOWER` (app.py lines 639-643): the lowercased
registry values together with the extra aliases.  The source builds a
Python `set`; it is consumed only through an existential substring test,
so the iteration order of the set is irrelevant and a list (duplicates
removed) is a faithful model. -/
def PLATFORM_NAMES_LOWER : List String :=
  ["linkedin", "indeed", "glassdoor", "ziprecruiter", "monster", "dice", "lever",
   "greenhouse", "workday", "smartrecruiters", "angellist", "wellfound", "built in",
   "simplyhired", "careerbuilder", "welcome to the jungle",
   "indeed.com", "glassdoor.com", "otta"]

/-- `_is_platform_part` (app.py lines 646-651): lowercase and strip the
segment, then test whether any known platform name occurs in it. -/
def isPlatformPart (text : String) : Bool :=
  let t := stripL (pyLowerL text.data)
  PLATFORM_NAMES_LOWER.any (fun pn => occursIn pn.data t)

/-- `parsed.netloc.lower().replace("www.", "")` (app.py line 657).
`str.replace` removes every non-overlapping occurrence, scanning left to
right — not only a leading prefix.  The pattern is replaced after
lowercasing, so only the lowercase form `www.` is relevant. -/
def removeWWW : List Char → List Char
  | 'w' :: 'w' :: 'w' :: '.' :: t => removeWWW t
  | c :: t => c :: removeWWW t
  | [] => []

/-- The string `extract_job_metadata` matches platforms against:
the netloc, lowercased, with every occurrence of `www.` removed. -/
def normalizeDomain (netloc : String) : String :=
  String.mk (removeWWW (pyLowerL netloc.data))

/-- The registry scan (app.py lines 661-664): `for domain_key,
platform_name in PLATFORM_DOMAINS.items(): if domain_key in domain:
platform = platform_name; break`, defaulting to `"Other"`. -/
def detectGo (domain : List Char) : List (String × String) → String
  | [] => "Other"
  | (k, v) :: rest => if occursIn k.data domain then v else detectGo domain rest

/-- Platform detection from the normalized domain string. -/
def detectPlatform (domain : String) : String := detectGo domain.data PLATFORM_DOMAINS

/-- The bespoke per-platform title parsers (app.py lines 675-699),
returning `(company, position)`; both fields are `""` when the platform
has no bespoke rule or its pattern did not apply. -/
def bespokeParse (platform title : String) : String × String :=
  if platform = "LinkedIn" then
    -- position = m.group(1).strip(); company = m.group(2).strip()
    match liMatch title.data with
    | some (g1, g2) => (pyStrip g2, pyStrip g1)
    | none => ("", "")
  else if platform = "Indeed" then
    -- parts = re.split(r"\s*[-–]\s*", title); position = parts[0]; company = parts[1]
    match reSplitDashAll title.data with
    | p0 :: p1 :: _ => (pyStrip p1, pyStrip p0)
    | _ => ("", "")
  else if platform = "Glassdoor" then
    -- company = m.group(1).strip(); position = m.group(2).strip()
    match gdMatch title.data with
    | some (g1, g2) => (pyStrip g1, pyStrip g2)
    | none => ("", "")
  else if platform = "Welcome to the Jungle" then
    -- main = re.split(r"\s*\|\s*", title)[0]; then one dash split
    let main := (reSplitPipe title.data).headD []
    match reSplitDash1 main with
    | p0 :: p1 :: _ => (pyStrip p0, pyStrip p1)
    | [p0] => ("", pyStrip p0)
    | [] => ("", "")   -- unreachable: re.split never returns an empty list
  else ("", "")

/-- The dash-split step of the generic fallback (app.py lines 711-717),
applied to the chosen content-segment list: `main = content_parts[0]`,
one dash split, `company = sub[0]`, `position = sub[1]` when two parts
result, else `position = sub[0]`. -/
def fallbackCore (content_parts : List (List Char)) : String × String :=
  let main := content_parts.headD []
  match reSplitDash1 main with
  | s0 :: s1 :: _ => (pyStrip s0, pyStrip s1)
  | [s0] => ("", pyStrip s0)
  | [] => ("", "")   -- unreachable: re.split never returns an empty list

/-- The generic fallback parser (app.py lines 702-717): split the title
on pipes; keep the stripped segments that are not platform branding;
when that filter removed every segment, revert to the unfiltered
(stripped) segment list; then `fallbackCore`. -/
def fallbackParse (title : String) : String × String :=
  let pipe_parts := reSplitPipe title.data
  let kept := (pipe_parts.filter (fun p => !isPlatformPart (String.mk p))).map stripL
  fallbackCore (if kept.isEmpty then pipe_parts.map stripL else kept)

/-- Dispatch between the bespoke parsers and the fallback (app.py lines
675-717): the fallback runs exactly when the bespoke step left both
fields empty (`if not company and not position`). -/
def parseTitle (platform title : String) : String × String :=
  let cp := bespokeParse platform title
  if cp.1 = "" ∧ cp.2 = "" then fallbackParse title else cp

/-- The result record of `extract_job_metadata` (app.py lines 719-724). -/
structure JobMeta where
  platform : String
  company : String
  position : String
  url : String
deriving DecidableEq, Repr

/-- `extract_job_metadata(url, title, text)` (app.py lines 654-724).
`text` is accepted but never read.  A `ValueError` escaping `urlparse`
propagates out of the function (there is no handler inside it); it is
modelled as `.error`.  Title parsing runs only under `if title:`. -/
def extract_job_metadata (url title _text : String) : Except String JobMeta :=
  match urlparseNetloc url with
  | .error e => .error e
  | .ok netloc =>
    let platform := detectPlatform (normalizeDomain netloc)
    let cp := if title = "" then ("", "") else parseTitle platform title
    .ok ⟨platform, cp.1, cp.2, url⟩

example : extract_job_metadata "https://www.linkedin.com/jobs/view/123"
    "Senior Backend Engineer at Acme Corp | LinkedIn" "" =
    .ok ⟨"LinkedIn", "Acme Corp", "Senior Backend Engineer",
         "https://www.linkedin.com/jobs/view/123"⟩ := rfl

example : extract_job_metadata "https://www.indeed.com/viewjob?jk=1"
    "Data Analyst - Beta LLC - Austin, TX | Indeed.com" "" =
    .ok ⟨"Indeed", "Beta LLC", "Data Analyst", "https://www.indeed.com/viewjob?jk=1"⟩ := rfl

example : extract_job_metadata "https://www.glassdoor.com/job-listing/1"
    "Gamma Inc hiring Product Manager in Seattle, WA | Glassdoor" "" =
    .ok ⟨"Glassdoor", "Gamma Inc", "Product Manager",
         "https://www.glassdoor.com/job-listing/1"⟩ := rfl

example : extract_job_metadata "https://careers.unknownsite.com/x" "" "body" =
    .ok ⟨"Other", "", "", "https://careers.unknownsite.com/x"⟩ := rfl

example : extract_job_metadata "https://www.welcometothejungle.com/en/companies/x/jobs/y"
    "Acme - Staff Engineer | Welcome to the Jungle (formerly Otta)" "" =
    .ok ⟨"Welcome to the Jungle", "Acme", "Staff Engineer",
         "https://www.welcometothejungle.com/en/companies/x/jobs/y"⟩ := rfl

example : extract_job_metadata "http://[abc]" "T" "" =
    .error "ValueError: bracketed host is not an IPv6 or IPvFuture address" := rfl

example : extract_job_metadata "http://\u2100" "T" "" =
    .error "ValueError: netloc contains invalid characters under NFKC normalization" := rfl

/-!
## Helper lemmas about the classifier and the assembler
-/

/-- Inversion for a successful `extract_job_metadata` call. -/
lemma extract_ok_inv {url title text : String} {r : JobMeta}
    (h : extract_job_metadata url title text = .ok r) :
    ∃ n : String, urlparseNetloc url = .ok n ∧
      r = ⟨detectPlatform (normalizeDomain n),
           (if title = "" then (("", "") : String × String)
            else parseTitle (detectPlatform (normalizeDomain n)) title).1,
           (if title = "" then (("", "") : String × String)
            else parseTitle (detectPlatform (normalizeDomain n)) title).2,
           url⟩ := by
  unfold extract_job_metadata at h
  cases hn : urlparseNetloc url with
  | error e => rw [hn] at h; exact absurd h (by simp)
  | ok n =>
    rw [hn] at h
    simp only [Except.ok.injEq] at h
    exact ⟨n, rfl, h.symm⟩

/-- The registry scan yields `"Other"` or a registry platform name. -/
lemma detectGo_mem (l : List (String × String)) (d : List Char) :
    detectGo d l = "Other" ∨ detectGo d l ∈ l.map Prod.snd := by
  induction l with
  | nil => exact Or.inl rfl
  | cons e rest ih =>
    obtain ⟨k, v⟩ := e
    by_cases hc : occursIn k.data d = true
    · right
      simp [detectGo, hc]
    · have hc' : occursIn k.data d = false := by
        cases hval : occursIn k.data d
        · rfl
        · exact absurd hval hc
      simp only [detectGo, hc', Bool.false_eq_true, if_false, List.map_cons, List.mem_cons]
      rcases ih with h | h
      · exact Or.inl h
      · exact Or.inr (Or.inr h)

/-- Every platform name in the registry is nonempty. -/
lemma registry_names_ne_empty : ∀ x ∈ PLATFORM_DOMAINS.map Prod.snd, x ≠ "" := by decide

/-- The platform field of a successful extraction is never empty. -/
lemma extract_platform_ne_empty {url title text : String} {r : JobMeta}
    (h : extract_job_metadata url title text = .ok r) : r.platform ≠ "" := by
  obtain ⟨n, -, hr⟩ := extract_ok_inv h
  rw [hr]
  show detectPlatform (normalizeDomain n) ≠ ""
  unfold detectPlatform
  rcases detectGo_mem PLATFORM_DOMAINS (normalizeDomain n).data with h' | h'
  · rw [h']; decide
  · exact registry_names_ne_empty _ h'

/-- First-match characterization of the registry scan: if the fragment
at index `i` occurs in the host and no earlier fragment does, the scan
returns the platform name at index `i`. -/
lemma detectGo_first :
    ∀ (l : List (String × String)) (d : List Char) (i : Nat) (hi : i < l.length),
      occursIn (l.get ⟨i, hi⟩).1.data d = true →
      (∀ j (hj : j < i), occursIn (l.get ⟨j, Nat.lt_trans hj hi⟩).1.data d = false) →
      detectGo d l = (l.get ⟨i, hi⟩).2 := by
  intro l
  induction l with
  | nil => intro d i hi; exact absurd hi (Nat.not_lt_zero i)
  | cons e rest ih =>
    intro d i hi hocc hbefore
    obtain ⟨k, v⟩ := e
    cases i with
    | zero =>
      simp only [List.get] at hocc ⊢
      simp only [detectGo, hocc, if_true]
    | succ i' =>
      have h0 : occursIn k.data d = false := hbefore 0 (Nat.succ_pos i')
      simp only [List.get] at hocc ⊢
      simp only [detectGo, h0, Bool.false_eq_true, if_false]
      exact ih d i' (Nat.lt_of_succ_lt_succ hi) hocc
        (fun j hj => hbefore (j + 1) (Nat.succ_lt_succ hj))

/-- If no registry fragment occurs, the scan returns `"Other"`. -/
lemma detectGo_other :
    ∀ (l : List (String × String)) (d : List Char),
      (∀ e ∈ l, occursIn e.1.data d = false) → detectGo d l = "Other" := by
  intro l
  induction l with
  | nil => intro d _; rfl
  | cons e rest ih =>
    intro d hall
    obtain ⟨k, v⟩ := e
    have h0 : occursIn k.data d = false := hall (k, v) (List.mem_cons_self _ _)
    simp only [detectGo, h0, Bool.false_eq_true, if_false]
    exact ih d (fun e he => hall e (List.mem_cons_of_mem _ he))

/-- With an empty title every bespoke branch leaves both fields empty. -/
lemma bespokeParse_empty (p : String) : bespokeParse p "" = ("", "") := by
  unfold bespokeParse
  split_ifs <;> rfl

/-- The fallback on an empty title also leaves both fields empty. -/
lemma fallbackParse_empty : fallbackParse "" = ("", "") := rfl

/-!
## Claims
-/

/-- C8: `extract_job_metadata` is deterministic, and its result does not
depend on the `text` (scraped body) argument: calls with the same `url`
and `title` but different `text` values yield identical results. -/
theorem C8_theorem (url title text text2 : String) :
    extract_job_metadata url title text = extract_job_metadata url title text ∧
    extract_job_metadata url title text = extract_job_metadata url title text2 :=
  ⟨rfl, rfl⟩

/-- C10: the `platform`, `company` and `position` outputs depend on the
URL only through its parsed host (netloc) component: URLs with the same
netloc give equal results up to the echoed `url` field. -/
theorem C10_theorem (url1 url2 title text : String)
    (h : urlparseNetloc url1 = urlparseNetloc url2) :
    (extract_job_metadata url1 title text).map (fun r => (r.platform, r.company, r.position)) =
    (extract_job_metadata url2 title text).map (fun r => (r.platform, r.company, r.position)) := by
  unfold extract_job_metadata
  rw [← h]
  cases urlparseNetloc url1 with
  | error e => rfl
  | ok n => rfl

/-- Witness for C10 at two URLs sharing the netloc `www.linkedin.com`. -/
theorem C10_witness :
    (extract_job_metadata "https://www.linkedin.com/jobs/a" "T at C | LinkedIn" "b1").map
        (fun r => (r.platform, r.company, r.position)) =
    (extract_job_metadata "https://www.linkedin.com/jobs/b" "T at C | LinkedIn" "b2").map
        (fun r => (r.platform, r.company, r.position)) := by
  have h := C10_theorem "https://www.linkedin.com/jobs/a" "https://www.linkedin.com/jobs/b"
    "T at C | LinkedIn" "b1" rfl
  calc (extract_job_metadata "https://www.linkedin.com/jobs/a" "T at C | LinkedIn" "b1").map
          (fun r => (r.platform, r.company, r.position))
      = (extract_job_metadata "https://www.linkedin.com/jobs/b" "T at C | LinkedIn" "b1").map
          (fun r => (r.platform, r.company, r.position)) := h
    _ = (extract_job_metadata "https://www.linkedin.com/jobs/b" "T at C | LinkedIn" "b2").map
          (fun r => (r.platform, r.company, r.position)) := rfl

/-- C7: for every successful extraction the platform field is nonempty
and is either a registry platform name or the literal `"Other"`. -/
theorem C7_theorem (url title text : String) (r : JobMeta)
    (h : extract_job_metadata url title text = .ok r) :
    r.platform ≠ "" ∧ (r.platform = "Other" ∨ r.platform ∈ PLATFORM_DOMAINS.map Prod.snd) := by
  refine ⟨extract_platform_ne_empty h, ?_⟩
  obtain ⟨n, -, hr⟩ := extract_ok_inv h
  rw [hr]
  exact detectGo_mem PLATFORM_DOMAINS (normalizeDomain n).data

/-- Witness for C7 at a concrete successful extraction. -/
theorem C7_witness :
    ("Other" : String) ≠ "" ∧
      (("Other" : String) = "Other" ∨ ("Other" : String) ∈ PLATFORM_DOMAINS.map Prod.snd) :=
  C7_theorem "https://careers.unknownsite.com/x" "" ""
    ⟨"Other", "", "", "https://careers.unknownsite.com/x"⟩ rfl

/-- C2: the classifier scans the registry in its authored order and
returns the platform name of the first association whose fragment occurs
in the host; with no occurring fragment it returns `"Other"`. -/
theorem C2_theorem :
    (∀ (host : String) (i : Nat) (hi : i < PLATFORM_DOMAINS.length),
        occursIn (PLATFORM_DOMAINS.get ⟨i, hi⟩).1.data host.data = true →
        (∀ j (hj : j < i),
          occursIn (PLATFORM_DOMAINS.get ⟨j, Nat.lt_trans hj hi⟩).1.data host.data = false) →
        detectPlatform host = (PLATFORM_DOMAINS.get ⟨i, hi⟩).2) ∧
    (∀ host : String, (∀ e ∈ PLATFORM_DOMAINS, occursIn e.1.data host.data = false) →
        detectPlatform host = "Other") :=
  ⟨fun host i hi hocc hbefore => detectGo_first PLATFORM_DOMAINS host.data i hi hocc hbefore,
   fun host hall => detectGo_other PLATFORM_DOMAINS host.data hall⟩

/-- Witness for C2: `dice.com.lever.co` contains both the `dice.com`
fragment (index 5) and the `lever.co` fragment (index 6); the earlier
entry wins.  `example.org` contains no fragment. -/
theorem C2_witness :
    detectPlatform "dice.com.lever.co" = "Dice" ∧ detectPlatform "example.org" = "Other" :=
  ⟨C2_theorem.1 "dice.com.lever.co" 5 (by decide) (by decide) (by decide),
   C2_theorem.2 "example.org" (by decide)⟩

/-- Modelled from the spec for comparison (§4.1): "Parse the URL to
obtain its host component; lowercase it; strip a leading `www.` prefix
if present." -/
def specHostNormalize (host : String) : String :=
  let l := pyLowerL host.data
  String.mk (if startsWithL "www.".data l then l.drop 4 else l)

/-- C3 counterexample: the code normalizes the netloc with
`str.replace("www.", "")`, which removes every occurrence of `www.`,
not only a leading prefix.  For `https://diwww.ce.com/x` the host used
for matching is `dice.com` (and the URL classifies as `"Dice"`),
whereas the spec's normalization leaves `diwww.ce.com` (which
classifies as `"Other"`). -/
theorem C3_counterexample :
    urlparseNetloc "https://diwww.ce.com/x" = .ok "diwww.ce.com" ∧
    normalizeDomain "diwww.ce.com" = "dice.com" ∧
    specHostNormalize "diwww.ce.com" = "diwww.ce.com" ∧
    normalizeDomain "diwww.ce.com" ≠ specHostNormalize "diwww.ce.com" ∧
    (extract_job_metadata "https://diwww.ce.com/x" "" "").map JobMeta.platform = .ok "Dice" ∧
    detectPlatform (specHostNormalize "diwww.ce.com") = "Other" :=
  ⟨rfl, rfl, rfl, by decide, rfl, rfl⟩

/-- C3 (amended): the host string used for platform matching is the
URL's netloc lowercased with every occurrence of the substring `www.`
removed (not only a leading prefix); matching is consequently
case-insensitive and ignores a leading `www.`, so
`https://www.LinkedIn.com/jobs/123` and `https://linkedin.com/jobs/123`
classify to the same platform. -/
theorem C3_amended :
    (∀ (url title text : String) (r : JobMeta) (n : String),
        extract_job_metadata url title text = .ok r → urlparseNetloc url = .ok n →
        r.platform = detectPlatform (normalizeDomain n)) ∧
    (∀ title text : String,
        (extract_job_metadata "https://www.LinkedIn.com/jobs/123" title text).map
            JobMeta.platform =
        (extract_job_metadata "https://linkedin.com/jobs/123" title text).map
            JobMeta.platform) := by
  constructor
  · intro url title text r n h hn
    obtain ⟨n', hn', hr⟩ := extract_ok_inv h
    rw [hn'] at hn
    cases hn
    rw [hr]
  · intro title text
    rfl

/-- Witness for C3 (amended), applying the general conjunct at a
concrete successful extraction. -/
theorem C3_witness : ("LinkedIn" : String) = detectPlatform (normalizeDomain "linkedin.com") :=
  C3_amended.1 "https://linkedin.com/jobs/123" "" ""
    ⟨"LinkedIn", "", "", "https://linkedin.com/jobs/123"⟩ "linkedin.com" rfl rfl

/-- C5: the company/position pair of the result equals the bespoke
parser's output whenever the classified platform's bespoke step
produced at least one non-empty field, and equals the generic
fallback's output exactly when the bespoke step (or absence of a
bespoke rule) left both fields empty.  (With an empty title nothing is
parsed at all; both sides are then the empty pair, since every parser
returns `("", "")` on an empty title.) -/
theorem C5_theorem (url title text : String) (r : JobMeta)
    (h : extract_job_metadata url title text = .ok r) :
    (r.company, r.position) =
      (if bespokeParse r.platform title = ("", "") then fallbackParse title
       else bespokeParse r.platform title) := by
  obtain ⟨n, -, hr⟩ := extract_ok_inv h
  rw [hr]
  by_cases ht : title = ""
  · subst ht
    rw [bespokeParse_empty, fallbackParse_empty]
    rfl
  · simp only [ht, if_false]
    unfold parseTitle
    by_cases hb :
        bespokeParse (detectPlatform (normalizeDomain n)) title = ("", "")
    · have hb' : (bespokeParse (detectPlatform (normalizeDomain n)) title).1 = "" ∧
          (bespokeParse (detectPlatform (normalizeDomain n)) title).2 = "" := by
        rw [hb]; exact ⟨rfl, rfl⟩
      simp only [hb, hb', if_true, and_self]
    · have hb' : ¬((bespokeParse (detectPlatform (normalizeDomain n)) title).1 = "" ∧
          (bespokeParse (detectPlatform (normalizeDomain n)) title).2 = "") := by
        intro hcon
        exact hb (Prod.ext hcon.1 hcon.2)
      simp only [hb, hb', if_false]

/-- Witness for C5 at a concrete extraction that takes the fallback
path (platform `"Other"`, dash-separated title). -/
theorem C5_witness :
    (("Alpha", "Beta") : String × String) =
      (if bespokeParse "Other" "Alpha - Beta" = ("", "") then fallbackParse "Alpha - Beta"
       else bespokeParse "Other" "Alpha - Beta") :=
  C5_theorem "https://example.org/j" "Alpha - Beta" ""
    ⟨"Other", "Alpha", "Beta", "https://example.org/j"⟩ rfl

/-- C6: if filtering the platform-branded segments removes every
pipe-separated segment of the title, the fallback reverts to the
unfiltered (stripped) segment list; and for a title none of whose
pipe-separated segments contains platform branding the result never has
platform, company and position all empty. -/
theorem C6_theorem :
    (∀ title : String,
        (reSplitPipe title.data).filter (fun p => !isPlatformPart (String.mk p)) = [] →
        fallbackParse title = fallbackCore ((reSplitPipe title.data).map stripL)) ∧
    (∀ (url title text : String) (r : JobMeta),
        extract_job_metadata url title text = .ok r →
        (∀ p ∈ reSplitPipe title.data, isPlatformPart (String.mk p) = false) →
        ¬(r.platform = "" ∧ r.company = "" ∧ r.position = "")) := by
  constructor
  · intro title hfilt
    unfold fallbackParse
    simp only [hfilt, List.map_nil, List.isEmpty_nil, if_true]
  · intro url title text r h _hno hcon
    exact extract_platform_ne_empty h hcon.1

/-- Witness for C6: a title made entirely of brand segments exercises
the revert branch; a brand-free dash title yields a non-empty result. -/
theorem C6_witness :
    (fallbackParse "LinkedIn | Indeed" =
      fallbackCore ((reSplitPipe "LinkedIn | Indeed".data).map stripL)) ∧
    ¬((("Other" : String) = "") ∧ (("DevOps Engineer" : String) = "") ∧
      (("Delta Systems" : String) = "")) :=
  ⟨C6_theorem.1 "LinkedIn | Indeed" (by decide),
   C6_theorem.2 "https://x.example.com/j" "DevOps Engineer - Delta Systems" ""
     ⟨"Other", "DevOps Engineer", "Delta Systems", "https://x.example.com/j"⟩ rfl (by decide)⟩

/-!
## C4: the LinkedIn parser and the position of the `" at "` split

`(.+?)` is lazy, so the split happens at the *first* viable `\s+at\s+`,
not the last.  The lemmas below compute `lazyMatch` on titles of the
schematic shape `a ++ " at " ++ b ++ " at " ++ c ++ " | LinkedIn"` where
`a`, `b`, `c` are words of "plain" characters.
-/

/-- A character that is not whitespace (hence not a newline) and none of
the separator characters the LinkedIn pattern reacts to. -/
def plainChar (c : Char) : Bool :=
  !pyIsSpace c && !(c == '|' || c == '-' || c == '–')

lemma not_space_of_plain {c : Char} (h : plainChar c = true) : pyIsSpace c = false := by
  unfold plainChar at h
  cases hsp : pyIsSpace c
  · rfl
  · rw [hsp] at h
    simp at h

lemma ne_newline_of_plain {c : Char} (h : plainChar c = true) : c ≠ '\n' := by
  intro hcc
  subst hcc
  exact absurd h (by decide)

lemma not_sep_of_plain {c : Char} (h : plainChar c = true) :
    (c == '|' || c == '-' || c == '–') = false := by
  unfold plainChar at h
  cases hsep : (c == '|' || c == '-' || c == '–')
  · rfl
  · rw [hsep] at h
    simp at h

/-- `\s+WORD…` cannot match at a position holding a non-whitespace
character. -/
lemma afterWord_of_not_space (word : List Char) (alt : List Char → Bool) (c : Char)
    (t : List Char) (hc : pyIsSpace c = false) : afterWord word alt (c :: t) = none := by
  unfold afterWord
  rw [List.takeWhile_cons_of_neg (by simp [hc])]
  rfl

/-- Group 1 being lazy, the scan walks through a block of
non-whitespace characters (where `\s+WORD…` cannot start) and stops at
the first position where the rest of the pattern matches. -/
lemma lazyMatch_build (word : List Char) (alt : List Char → Bool) :
    ∀ (a s g : List Char), a ≠ [] →
      (∀ x ∈ a, pyIsSpace x = false) →
      afterWord word alt s = some g →
      lazyMatch word alt (a ++ s) = some (a, g) := by
  intro a
  induction a with
  | nil => intro s g h; exact absurd rfl h
  | cons c a' ih =>
    intro s g _ hpl hafter
    have hc : pyIsSpace c = false := hpl c (List.mem_cons_self _ _)
    have hcn : c ≠ '\n' := by
      intro hcc
      rw [hcc] at hc
      exact absurd hc (by decide)
    cases a' with
    | nil =>
      show lazyMatch word alt (c :: s) = some ([c], g)
      unfold lazyMatch
      rw [if_neg hcn, hafter]
    | cons c2 a'' =>
      have h2 : pyIsSpace c2 = false := hpl c2 (by simp)
      have hrec : lazyMatch word alt ((c2 :: a'') ++ s) = some (c2 :: a'', g) :=
        ih s g (by simp) (fun x hx => hpl x (List.mem_cons_of_mem _ hx)) hafter
      show lazyMatch word alt (c :: ((c2 :: a'') ++ s)) = some (c :: c2 :: a'', g)
      unfold lazyMatch
      simp only [List.cons_append] at hrec ⊢
      rw [if_neg hcn, afterWord_of_not_space word alt c2 (a'' ++ s) h2, hrec]

/-- Computation of `\s+at\s+(.+?)…` on the schematic shape
`" at " ++ z` with `z` starting in a non-whitespace character: the
single space is the whole whitespace run on either side of `at`, so the
match reduces to group 2 starting at `z`. -/
lemma afterWord_at_shape (alt : List Char → Bool) (z0 : Char) (z' : List Char)
    (hz0 : pyIsSpace z0 = false) :
    afterWord ['a', 't'] alt (' ' :: 'a' :: 't' :: ' ' :: z0 :: z') = lazyG2 alt (z0 :: z') := by
  have hsp : pyIsSpace ' ' = true := rfl
  have hna : ¬pyIsSpace 'a' = true := by decide
  have hnz : ¬pyIsSpace z0 = true := by rw [hz0]; exact Bool.false_ne_true
  unfold afterWord
  simp only [List.takeWhile_cons_of_pos hsp, List.takeWhile_cons_of_neg hna,
    List.dropWhile_cons_of_pos hsp, List.dropWhile_cons_of_neg hna,
    List.isEmpty_cons, Bool.false_eq_true, if_false]
  have hsw : startsWithL ['a', 't'] ('a' :: 't' :: ' ' :: z0 :: z') = true := rfl
  rw [if_pos hsw]
  show wsBack alt ((' ' :: z0 :: z').takeWhile pyIsSpace).length (' ' :: z0 :: z') =
    lazyG2 alt (z0 :: z')
  rw [List.takeWhile_cons_of_pos hsp, List.takeWhile_cons_of_neg hnz]
  show wsBack alt 1 (' ' :: z0 :: z') = lazyG2 alt (z0 :: z')
  unfold wsBack
  cases hg : lazyG2 alt (z0 :: z') with
  | none => simp [hg, wsBack]
  | some g => simp [hg]

/-- Group 2 ends exactly at the first position where the alternation
holds: walking a block `w` whose proper suffixes never satisfy the
alternation (continued with `S`), the lazy group collects all of `w`
and stops when `alt S` holds. -/
lemma lazyG2_build (alt : List Char → Bool) :
    ∀ (w S : List Char), w ≠ [] → (∀ x ∈ w, x ≠ '\n') →
      alt S = true →
      (∀ u v, w = u ++ v → u ≠ [] → v ≠ [] → alt (v ++ S) = false) →
      lazyG2 alt (w ++ S) = some w := by
  intro w
  induction w with
  | nil => intro S h; exact absurd rfl h
  | cons c w' ih =>
    intro S _ hnl hS hmid
    have hcn : c ≠ '\n' := hnl c (List.mem_cons_self _ _)
    cases w' with
    | nil =>
      show lazyG2 alt (c :: S) = some [c]
      unfold lazyG2
      rw [if_neg hcn, if_pos hS]
    | cons c2 w'' =>
      have halt : alt ((c2 :: w'') ++ S) = false :=
        hmid [c] (c2 :: w'') rfl (by simp) (by simp)
      have hrec : lazyG2 alt ((c2 :: w'') ++ S) = some (c2 :: w'') := by
        apply ih S (by simp) (fun x hx => hnl x (List.mem_cons_of_mem _ hx)) hS
        intro u v huv hu hv
        exact hmid (c :: u) v (by rw [huv, List.cons_append]) (by simp) hv
      show lazyG2 alt (c :: ((c2 :: w'') ++ S)) = some (c :: c2 :: w'')
      unfold lazyG2
      simp only [List.cons_append] at halt hrec ⊢
      rw [if_neg hcn, halt]
      simp only [Bool.false_eq_true, if_false, hrec]

/-- `liAlt` ignores a leading whitespace character unless the remainder
is all-whitespace — and then the character does not change all-ness
either. -/
lemma liAlt_cons_ws {x : Char} (l : List Char) (hx : pyIsSpace x = true) :
    liAlt (x :: l) = liAlt l := by
  unfold liAlt
  rw [List.dropWhile_cons_of_pos hx, List.all_cons, hx, Bool.true_and]

/-- The LinkedIn alternation fails on every position inside a block
that contains a non-whitespace character and no separator characters. -/
lemma liAlt_false_of :
    ∀ (v S' : List Char), (∃ x ∈ v, pyIsSpace x = false) →
      (∀ x ∈ v, (x == '|' || x == '-' || x == '–') = false) →
      liAlt (v ++ S') = false := by
  intro v
  induction v with
  | nil =>
    intro S' hex _
    obtain ⟨x, hx, -⟩ := hex
    cases hx
  | cons c v' ih =>
    intro S' hex hsep
    by_cases hc : pyIsSpace c = true
    · obtain ⟨x, hx, hxw⟩ := hex
      have hx' : x ∈ v' := by
        rcases List.mem_cons.mp hx with hxc | hxv
        · rw [hxc] at hxw; rw [hxw] at hc; exact absurd hc (by decide)
        · exact hxv
      rw [List.cons_append, liAlt_cons_ws _ hc]
      exact ih S' ⟨x, hx', hxw⟩ (fun y hy => hsep y (List.mem_cons_of_mem _ hy))
    · have hc' : pyIsSpace c = false := by
        cases hval : pyIsSpace c
        · rfl
        · exact absurd hval hc
      rw [List.cons_append]
      unfold liAlt
      rw [List.dropWhile_cons_of_neg hc, List.all_cons, hc', Bool.false_and, Bool.or_false]
      show (c == '|' || c == '-' || c == '–') = false
      exact hsep c (List.mem_cons_self _ _)

/-- A list whose head is not whitespace is unchanged by `dropWhile`. -/
lemma dropWhile_eq_self_of_head (l : List Char)
    (h : ∀ x, l.head? = some x → pyIsSpace x = false) : l.dropWhile pyIsSpace = l := by
  cases l with
  | nil => rfl
  | cons c t =>
    have hc := h c rfl
    rw [List.dropWhile_cons_of_neg (by simp [hc])]

/-- A list with non-whitespace first and last characters is unchanged
by `strip()`. -/
lemma stripL_eq_self (l : List Char)
    (h1 : ∀ x, l.head? = some x → pyIsSpace x = false)
    (h2 : ∀ x, l.getLast? = some x → pyIsSpace x = false) : stripL l = l := by
  unfold stripL rdropL
  rw [dropWhile_eq_self_of_head l h1]
  rw [dropWhile_eq_self_of_head l.reverse
    (fun x hx => h2 x (by rw [← List.head?_reverse]; exact hx))]
  exact List.reverse_reverse l

/-- Full computation of the LinkedIn pattern on the schematic title
shape `a ++ " at " ++ w ++ " | " ++ rest`: the match splits at the first
`" at "` (group 1 = `a`), and group 2 collects `w` up to the pipe. -/
lemma liMatch_schematic (a w rest : List Char)
    (ha : a ≠ []) (hpa : ∀ x ∈ a, pyIsSpace x = false)
    (hw : w ≠ []) (hwhead : ∀ x, w.head? = some x → pyIsSpace x = false)
    (hwnl : ∀ x ∈ w, x ≠ '\n')
    (hmid : ∀ u v, w = u ++ v → u ≠ [] → v ≠ [] →
      liAlt (v ++ (' ' :: '|' :: rest)) = false) :
    liMatch (a ++ (' ' :: 'a' :: 't' :: ' ' :: (w ++ (' ' :: '|' :: rest)))) = some (a, w) := by
  apply lazyMatch_build ['a', 't'] liAlt a _ w ha hpa
  cases w with
  | nil => exact absurd rfl hw
  | cons w0 w' =>
    have h0 : pyIsSpace w0 = false := hwhead w0 rfl
    show afterWord ['a', 't'] liAlt
      (' ' :: 'a' :: 't' :: ' ' :: (w0 :: (w' ++ (' ' :: '|' :: rest)))) = some (w0 :: w')
    rw [afterWord_at_shape liAlt w0 (w' ++ (' ' :: '|' :: rest)) h0]
    have := lazyG2_build liAlt (w0 :: w') (' ' :: '|' :: rest) (by simp) hwnl rfl hmid
    simpa using this

/-- C4 counterexample: on a LinkedIn title in which `" at "` occurs
twice before the separator, the parser splits at the *first*
occurrence — `(.+?)` is lazy, not greedy — so the claimed split at the
last occurrence (position `"A at B"`, company `"C"`) does not happen. -/
theorem C4_counterexample :
    (extract_job_metadata "https://www.linkedin.com/jobs/view/9" "A at B at C | LinkedIn" "").map
        (fun r => (r.position, r.company)) = .ok ("A", "B at C") ∧
    (("A", "B at C") : String × String) ≠ ("A at B", "C") :=
  ⟨rfl, by decide⟩

/-- C4 (amended): for titles of the platform-A grammar the bespoke
parser matches *lazily* up to `" at "` — when `" at "` occurs more than
once before the separator, the split is at the *first* such
occurrence — taking the left side as position and the text from there up
to the next pipe, dash, or end of string as company.  Stated
schematically: for plain words `a`, `b`, `c` the title
`a ++ " at " ++ b ++ " at " ++ c ++ " | LinkedIn"` yields position `a`
and company `b ++ " at " ++ c`. -/
theorem C4_amended (a b c : List Char)
    (ha : a ≠ []) (hb : b ≠ []) (hc : c ≠ [])
    (hpa : ∀ x ∈ a, plainChar x = true) (hpb : ∀ x ∈ b, plainChar x = true)
    (hpc : ∀ x ∈ c, plainChar x = true) :
    extract_job_metadata "https://linkedin.com/jobs/view/1"
        (String.mk (a ++ " at ".data ++ b ++ " at ".data ++ c ++ " | LinkedIn".data)) "" =
      Except.ok ⟨"LinkedIn", String.mk (b ++ " at ".data ++ c), String.mk a,
        "https://linkedin.com/jobs/view/1"⟩ := by
  have hdata1 : " at ".data = [' ', 'a', 't', ' '] := rfl
  have hdata2 : " | LinkedIn".data = ' ' :: '|' :: " LinkedIn".data := rfl
  -- membership facts about the group-2 block
  have hW : ∀ x ∈ b ++ (' ' :: 'a' :: 't' :: ' ' :: c),
      (x == '|' || x == '-' || x == '–') = false ∧ x ≠ '\n' := by
    intro x hx
    rcases List.mem_append.mp hx with hxb | hxr
    · exact ⟨not_sep_of_plain (hpb x hxb), ne_newline_of_plain (hpb x hxb)⟩
    · simp only [List.mem_cons] at hxr
      rcases hxr with h | h | h | h | h
      · subst h; exact ⟨by decide, by decide⟩
      · subst h; exact ⟨by decide, by decide⟩
      · subst h; exact ⟨by decide, by decide⟩
      · subst h; exact ⟨by decide, by decide⟩
      · exact ⟨not_sep_of_plain (hpc x h), ne_newline_of_plain (hpc x h)⟩
  have hclast : c.getLast? = some (c.getLast hc) := List.getLast?_eq_getLast_of_ne_nil hc
  have hcplast : plainChar (c.getLast hc) = true := hpc _ (List.getLast_mem hc)
  have hWeq : b ++ (' ' :: 'a' :: 't' :: ' ' :: c) = (b ++ [' ', 'a', 't', ' ']) ++ c := by
    simp [List.append_assoc]
  have hWlast : (b ++ (' ' :: 'a' :: 't' :: ' ' :: c)).getLast? = some (c.getLast hc) := by
    rw [hWeq, List.getLast?_append_of_ne_nil _ hc, hclast]
  have hmid : ∀ u v, b ++ (' ' :: 'a' :: 't' :: ' ' :: c) = u ++ v → u ≠ [] → v ≠ [] →
      liAlt (v ++ (' ' :: '|' :: " LinkedIn".data)) = false := by
    intro u v huv hu hv
    apply liAlt_false_of
    · have hvl : v.getLast? = some (c.getLast hc) := by
        rw [huv] at hWlast
        rwa [List.getLast?_append_of_ne_nil u hv] at hWlast
      exact ⟨c.getLast hc, List.mem_of_mem_getLast? (by simp [hvl]),
        not_space_of_plain hcplast⟩
    · intro y hy
      have hyW : y ∈ b ++ (' ' :: 'a' :: 't' :: ' ' :: c) := by
        rw [huv]; exact List.mem_append.mpr (Or.inr hy)
      exact (hW y hyW).1
  obtain ⟨b0, b', hb0eq⟩ : ∃ b0 b', b = b0 :: b' := by
    cases b with
    | nil => exact absurd rfl hb
    | cons x y => exact ⟨x, y, rfl⟩
  have hWhead : ∀ x, (b ++ (' ' :: 'a' :: 't' :: ' ' :: c)).head? = some x →
      pyIsSpace x = false := by
    intro x hx
    rw [hb0eq] at hx
    simp only [List.cons_append, List.head?_cons, Option.some.injEq] at hx
    rw [← hx]
    exact not_space_of_plain (hpb b0 (by rw [hb0eq]; simp))
  have hli : liMatch (a ++ " at ".data ++ b ++ " at ".data ++ c ++ " | LinkedIn".data) =
      some (a, b ++ (' ' :: 'a' :: 't' :: ' ' :: c)) := by
    have hshape : a ++ " at ".data ++ b ++ " at ".data ++ c ++ " | LinkedIn".data =
        a ++ (' ' :: 'a' :: 't' :: ' ' ::
          ((b ++ (' ' :: 'a' :: 't' :: ' ' :: c)) ++ (' ' :: '|' :: " LinkedIn".data))) := by
      rw [hdata1, hdata2]
      simp [List.append_assoc]
    rw [hshape]
    apply liMatch_schematic
    · exact ha
    · exact fun x hx => not_space_of_plain (hpa x hx)
    · rw [hb0eq]; simp
    · exact hWhead
    · exact fun x hx => (hW x hx).2
    · exact hmid
  have hsa : pyStrip a = String.mk a := by
    unfold pyStrip
    congr 1
    apply stripL_eq_self
    · exact fun x hx => not_space_of_plain (hpa x (List.mem_of_mem_head? (by simp [hx])))
    · exact fun x hx => not_space_of_plain (hpa x (List.mem_of_mem_getLast? (by simp [hx])))
  have hsW : pyStrip (b ++ (' ' :: 'a' :: 't' :: ' ' :: c)) =
      String.mk (b ++ (' ' :: 'a' :: 't' :: ' ' :: c)) := by
    unfold pyStrip
    congr 1
    apply stripL_eq_self
    · exact hWhead
    · intro x hx
      rw [hWlast] at hx
      simp only [Option.some.injEq] at hx
      rw [← hx]
      exact not_space_of_plain hcplast
  have hbesp : bespokeParse "LinkedIn"
      (String.mk (a ++ " at ".data ++ b ++ " at ".data ++ c ++ " | LinkedIn".data)) =
      (pyStrip (b ++ (' ' :: 'a' :: 't' :: ' ' :: c)), pyStrip a) := by
    unfold bespokeParse
    rw [if_pos rfl]
    show (match liMatch (a ++ " at ".data ++ b ++ " at ".data ++ c ++ " | LinkedIn".data) with
      | some (g1, g2) => (pyStrip g2, pyStrip g1)
      | none => ("", "")) =
      (pyStrip (b ++ (' ' :: 'a' :: 't' :: ' ' :: c)), pyStrip a)
    rw [hli]
  have hane : String.mk a ≠ "" := by
    cases a with
    | nil => exact absurd rfl ha
    | cons x t =>
      intro hcon
      have := congrArg String.data hcon
      simp at this
  have hcond : ¬((pyStrip (b ++ (' ' :: 'a' :: 't' :: ' ' :: c)), pyStrip a).1 = "" ∧
      (pyStrip (b ++ (' ' :: 'a' :: 't' :: ' ' :: c)), pyStrip a).2 = "") := by
    intro hcon
    have h2 : pyStrip a = "" := hcon.2
    rw [hsa] at h2
    exact hane h2
  have hpt : parseTitle "LinkedIn"
      (String.mk (a ++ " at ".data ++ b ++ " at ".data ++ c ++ " | LinkedIn".data)) =
      (pyStrip (b ++ (' ' :: 'a' :: 't' :: ' ' :: c)), pyStrip a) := by
    unfold parseTitle
    rw [hbesp, if_neg hcond]
  have htne : String.mk (a ++ " at ".data ++ b ++ " at ".data ++ c ++ " | LinkedIn".data) ≠ "" := by
    cases a with
    | nil => exact absurd rfl ha
    | cons x t =>
      intro hcon
      have := congrArg String.data hcon
      simp at this
  have hfinal : b ++ (' ' :: 'a' :: 't' :: ' ' :: c) = b ++ " at ".data ++ c := by
    rw [hdata1, List.append_assoc]
    rfl
  unfold extract_job_metadata
  rw [show urlparseNetloc "https://linkedin.com/jobs/view/1" = Except.ok "linkedin.com" from rfl]
  simp only [show detectPlatform (normalizeDomain "linkedin.com") = "LinkedIn" from rfl]
  rw [if_neg htne, hpt, hsa, hsW, hfinal]

/-- Witness for C4 (amended) at the concrete words
`Lead`, `Night`, `Acme`. -/
theorem C4_witness :
    extract_job_metadata "https://linkedin.com/jobs/view/1"
        (String.mk ("Lead".data ++ " at ".data ++ "Night".data ++ " at ".data ++
          "Acme".data ++ " | LinkedIn".data)) "" =
      Except.ok ⟨"LinkedIn", String.mk ("Night".data ++ " at ".data ++ "Acme".data),
        String.mk "Lead".data, "https://linkedin.com/jobs/view/1"⟩ :=
  C4_amended "Lead".data "Night".data "Acme".data (by decide) (by decide) (by decide)
    (by decide) (by decide) (by decide)

/-!
## C9: every produced field is a stripped contiguous segment of the title
-/

/-- `m` occurs as a contiguous segment of `t`. -/
def SegIn (m t : List Char) : Prop := ∃ l r, t = l ++ m ++ r

lemma SegIn_nil (t : List Char) : SegIn [] t := ⟨[], t, rfl⟩

lemma SegIn_refl (t : List Char) : SegIn t t := ⟨[], [], by simp⟩

lemma SegIn_trans {m t s : List Char} (h1 : SegIn m t) (h2 : SegIn t s) : SegIn m s := by
  obtain ⟨l1, r1, h1⟩ := h1
  obtain ⟨l2, r2, h2⟩ := h2
  exact ⟨l2 ++ l1, r1 ++ r2, by rw [h2, h1]; simp [List.append_assoc]⟩

lemma SegIn_cons {m t : List Char} (c : Char) (h : SegIn m t) : SegIn m (c :: t) := by
  obtain ⟨l, r, h⟩ := h
  exact ⟨c :: l, r, by rw [h]; rfl⟩

lemma SegIn_of_pref {m t : List Char} (h : ∃ r, t = m ++ r) : SegIn m t := by
  obtain ⟨r, h⟩ := h
  exact ⟨[], r, h⟩

/-- The right-stripped list is a prefix of the original. -/
lemma rdropL_pref (m : List Char) : ∃ r, m = rdropL m ++ r := by
  refine ⟨(m.reverse.takeWhile pyIsSpace).reverse, ?_⟩
  unfold rdropL
  rw [← List.reverse_append, List.takeWhile_append_dropWhile pyIsSpace m.reverse,
    List.reverse_reverse]

/-- The stripped list is a contiguous segment of the original. -/
lemma stripL_SegIn (m : List Char) : SegIn (stripL m) m := by
  obtain ⟨r, hr⟩ := rdropL_pref (m.dropWhile pyIsSpace)
  refine ⟨m.takeWhile pyIsSpace, r, ?_⟩
  rw [List.append_assoc]
  show m = m.takeWhile pyIsSpace ++ (rdropL (m.dropWhile pyIsSpace) ++ r)
  rw [← hr, List.takeWhile_append_dropWhile]

/-- The head of a `dropWhile pyIsSpace` result is never whitespace. -/
lemma head?_dropWhile (l : List Char) :
    ∀ x, (l.dropWhile pyIsSpace).head? = some x → pyIsSpace x = false := by
  induction l with
  | nil => intro x hx; cases hx
  | cons c t ih =>
    intro x hx
    by_cases hc : pyIsSpace c = true
    · rw [List.dropWhile_cons_of_pos hc] at hx
      exact ih x hx
    · have hc' : pyIsSpace c = false := by
        cases hval : pyIsSpace c
        · rfl
        · exact absurd hval hc
      rw [List.dropWhile_cons_of_neg hc] at hx
      simp only [List.head?_cons, Option.some.injEq] at hx
      rw [← hx]
      exact hc'

lemma dropWhile_idem (l : List Char) :
    (l.dropWhile pyIsSpace).dropWhile pyIsSpace = l.dropWhile pyIsSpace :=
  dropWhile_eq_self_of_head _ (head?_dropWhile l)

lemma rdropL_idem (d : List Char) : rdropL (rdropL d) = rdropL d := by
  unfold rdropL
  rw [List.reverse_reverse, dropWhile_idem]

lemma dropWhile_rdropL (d : List Char)
    (hd : ∀ x, d.head? = some x → pyIsSpace x = false) :
    (rdropL d).dropWhile pyIsSpace = rdropL d := by
  apply dropWhile_eq_self_of_head
  intro x hx
  obtain ⟨r, hr⟩ := rdropL_pref d
  cases hrd : rdropL d with
  | nil => rw [hrd] at hx; cases hx
  | cons y ys =>
    rw [hrd] at hx
    simp only [List.head?_cons, Option.some.injEq] at hx
    rw [← hx]
    apply hd
    rw [hr, hrd]
    rfl

/-- `strip()` is idempotent. -/
lemma stripL_idem (l : List Char) : stripL (stripL l) = stripL l := by
  show stripL (rdropL (l.dropWhile pyIsSpace)) = rdropL (l.dropWhile pyIsSpace)
  unfold stripL
  rw [dropWhile_rdropL (l.dropWhile pyIsSpace) (head?_dropWhile l), rdropL_idem]

lemma SegIn_append_left {m t : List Char} (x : List Char) (h : SegIn m t) : SegIn m (x ++ t) := by
  obtain ⟨l, r, h⟩ := h
  exact ⟨x ++ l, r, by rw [h]; simp [List.append_assoc]⟩

/-- Every segment emitted by the split scan is a contiguous segment of
the text scanned so far plus the remaining input. -/
lemma splitRun_SegIn (isSep : Char → Bool) :
    ∀ (l : List Char) (budget : Option Nat) (aft : Bool) (buf acc seg : List Char),
      seg ∈ splitRun isSep budget aft buf acc l →
      SegIn seg (acc.reverse ++ (buf.reverse ++ l)) := by
  intro l
  induction l with
  | nil =>
    intro budget aft buf acc seg hseg
    simp only [splitRun, List.mem_singleton] at hseg
    subst hseg
    exact ⟨[], [], by simp⟩
  | cons c t ih =>
    intro budget aft buf acc seg hseg
    unfold splitRun at hseg
    by_cases hsp : pyIsSpace c = true
    · rw [if_pos hsp] at hseg
      by_cases haft : aft = true
      · rw [if_pos haft] at hseg
        have hin := ih budget true [] [] seg hseg
        simp only [List.reverse_nil, List.nil_append] at hin
        exact SegIn_append_left _ (SegIn_append_left _ (SegIn_cons c hin))
      · rw [if_neg haft] at hseg
        have hin := ih budget false (c :: buf) acc seg hseg
        simp only [List.reverse_cons, List.append_assoc] at hin ⊢
        simpa using hin
    · rw [if_neg hsp] at hseg
      by_cases hsep : (isSep c && !(budget == some 0)) = true
      · rw [if_pos hsep] at hseg
        rcases List.mem_cons.mp hseg with hh | hh
        · subst hh
          exact ⟨[], buf.reverse ++ (c :: t), by simp⟩
        · have hin := ih (budget.map Nat.pred) true [] [] seg hh
          simp only [List.reverse_nil, List.nil_append] at hin
          exact SegIn_append_left _ (SegIn_append_left _ (SegIn_cons c hin))
      · rw [if_neg hsep] at hseg
        have hin := ih budget false [] (c :: (buf ++ acc)) seg hseg
        simp only [List.reverse_cons, List.reverse_append, List.reverse_nil, List.nil_append,
          List.append_assoc] at hin ⊢
        simpa using hin

lemma SegIn_drop (x : List Char) (n : Nat) : SegIn (x.drop n) x :=
  ⟨x.take n, [], by simp⟩

lemma SegIn_dropWhile (s : List Char) : SegIn (s.dropWhile pyIsSpace) s :=
  ⟨s.takeWhile pyIsSpace, [], by simp⟩

/-- Group 2 of a lazy match is a prefix of the text it starts at. -/
lemma lazyG2_pref (alt : List Char → Bool) :
    ∀ (s g : List Char), lazyG2 alt s = some g → ∃ r, s = g ++ r := by
  intro s
  induction s with
  | nil => intro g h; cases h
  | cons c t ih =>
    intro g h
    unfold lazyG2 at h
    by_cases hc : c = '\n'
    · rw [if_pos hc] at h; cases h
    · rw [if_neg hc] at h
      by_cases halt : alt t = true
      · rw [if_pos halt] at h
        injection h with h
        subst h
        exact ⟨t, rfl⟩
      · rw [if_neg halt] at h
        cases hrec : lazyG2 alt t with
        | none => rw [hrec] at h; cases h
        | some g' =>
          rw [hrec] at h
          injection h with h
          obtain ⟨r, hr⟩ := ih g' hrec
          subst h
          exact ⟨r, by rw [hr]; rfl⟩

lemma wsBack_SegIn (alt : List Char → Bool) :
    ∀ (m : Nat) (r g : List Char), wsBack alt m r = some g → SegIn g r := by
  intro m
  induction m with
  | zero => intro r g h; cases h
  | succ m' ih =>
    intro r g h
    unfold wsBack at h
    cases hg : lazyG2 alt (r.drop (m' + 1)) with
    | some g' =>
      rw [hg] at h
      injection h with h
      subst h
      exact SegIn_trans (SegIn_of_pref (lazyG2_pref alt _ _ hg)) (SegIn_drop r (m' + 1))
    | none =>
      rw [hg] at h
      exact ih r g h

lemma afterWord_SegIn (word : List Char) (alt : List Char → Bool) (s g : List Char)
    (h : afterWord word alt s = some g) : SegIn g s := by
  unfold afterWord at h
  by_cases h1 : (s.takeWhile pyIsSpace).isEmpty = true
  · simp only [h1, if_true] at h
    cases h
  · have h1' : (s.takeWhile pyIsSpace).isEmpty = false := by
      cases hval : (s.takeWhile pyIsSpace).isEmpty
      · rfl
      · exact absurd hval h1
    simp only [h1', Bool.false_eq_true, if_false] at h
    by_cases h2 : startsWithL word (s.dropWhile pyIsSpace) = true
    · simp only [h2, if_true] at h
      exact SegIn_trans (SegIn_trans (wsBack_SegIn alt _ _ g h)
        (SegIn_drop (s.dropWhile pyIsSpace) word.length)) (SegIn_dropWhile s)
    · have h2' : startsWithL word (s.dropWhile pyIsSpace) = false := by
        cases hval : startsWithL word (s.dropWhile pyIsSpace)
        · rfl
        · exact absurd hval h2
      simp only [h2', Bool.false_eq_true, if_false] at h
      cases h

/-- Both groups of a lazy match are contiguous segments of the input
(group 1 is in fact a prefix). -/
lemma lazyMatch_SegIn (word : List Char) (alt : List Char → Bool) :
    ∀ (l g1 g2 : List Char), lazyMatch word alt l = some (g1, g2) →
      (∃ r, l = g1 ++ r) ∧ SegIn g2 l := by
  intro l
  induction l with
  | nil => intro g1 g2 h; cases h
  | cons c t ih =>
    intro g1 g2 h
    unfold lazyMatch at h
    by_cases hc : c = '\n'
    · rw [if_pos hc] at h; cases h
    · rw [if_neg hc] at h
      cases haw : afterWord word alt t with
      | some g =>
        rw [haw] at h
        injection h with h
        rw [Prod.mk.injEq] at h
        obtain ⟨ha, hb⟩ := h
        subst ha
        subst hb
        exact ⟨⟨t, rfl⟩, SegIn_cons c (afterWord_SegIn word alt t g haw)⟩
      | none =>
        rw [haw] at h
        cases hrec : lazyMatch word alt t with
        | none => rw [hrec] at h; cases h
        | some p =>
          obtain ⟨g1', g2'⟩ := p
          rw [hrec] at h
          injection h with h
          rw [Prod.mk.injEq] at h
          obtain ⟨ha, hb⟩ := h
          obtain ⟨⟨r, hr⟩, hseg⟩ := ih g1' g2' hrec
          subst ha
          subst hb
          exact ⟨⟨r, by rw [hr]; rfl⟩, SegIn_cons c hseg⟩

/-- Every bespoke parser's output pair consists of stripped contiguous
segments of the title (the empty string being the strip of the empty
segment). -/
lemma bespokeParse_shape (p t : String) :
    ∃ m1 m2, SegIn m1 t.data ∧ SegIn m2 t.data ∧
      bespokeParse p t = (pyStrip m1, pyStrip m2) := by
  unfold bespokeParse
  split_ifs with h1 h2 h3 h4
  · cases hm : liMatch t.data with
    | none => exact ⟨[], [], SegIn_nil _, SegIn_nil _, rfl⟩
    | some g =>
      obtain ⟨g1, g2⟩ := g
      obtain ⟨⟨rr, hrr⟩, hseg⟩ := lazyMatch_SegIn ['a', 't'] liAlt t.data g1 g2 hm
      exact ⟨g2, g1, hseg, ⟨[], rr, by rw [hrr]; rfl⟩, rfl⟩
  · cases hm : reSplitDashAll t.data with
    | nil => exact ⟨[], [], SegIn_nil _, SegIn_nil _, rfl⟩
    | cons p0 rest =>
      have hm2 : splitRun isDash none false [] [] t.data = p0 :: rest := hm
      cases rest with
      | nil => exact ⟨[], [], SegIn_nil _, SegIn_nil _, rfl⟩
      | cons p1 rest2 =>
        have hs0 : SegIn p0 t.data := by
          have := splitRun_SegIn isDash t.data none false [] [] p0 (by rw [hm2]; simp)
          simpa using this
        have hs1 : SegIn p1 t.data := by
          have := splitRun_SegIn isDash t.data none false [] [] p1 (by rw [hm2]; simp)
          simpa using this
        exact ⟨p1, p0, hs1, hs0, rfl⟩
  · cases hm : gdMatch t.data with
    | none => exact ⟨[], [], SegIn_nil _, SegIn_nil _, rfl⟩
    | some g =>
      obtain ⟨g1, g2⟩ := g
      obtain ⟨⟨rr, hrr⟩, hseg⟩ :=
        lazyMatch_SegIn ['h', 'i', 'r', 'i', 'n', 'g'] gdAlt t.data g1 g2 hm
      exact ⟨g1, g2, ⟨[], rr, by rw [hrr]; rfl⟩, hseg, rfl⟩
  · have hmain : SegIn ((reSplitPipe t.data).headD []) t.data := by
      cases hp : reSplitPipe t.data with
      | nil => exact SegIn_nil _
      | cons q qs =>
        have hp2 : splitRun isPipe none false [] [] t.data = q :: qs := hp
        have := splitRun_SegIn isPipe t.data none false [] [] q (by rw [hp2]; simp)
        simpa using this
    cases hd : reSplitDash1 ((reSplitPipe t.data).headD []) with
    | nil =>
      refine ⟨[], [], SegIn_nil _, SegIn_nil _, ?_⟩
      show (match reSplitDash1 ((reSplitPipe t.data).headD []) with
        | p0 :: p1 :: _ => (pyStrip p0, pyStrip p1)
        | [p0] => ("", pyStrip p0)
        | [] => ("", "")) = ((pyStrip [] : String), (pyStrip [] : String))
      rw [hd]
      rfl
    | cons s0 srest =>
      have hd2 : splitRun isDash (some 1) false [] [] ((reSplitPipe t.data).headD []) =
        s0 :: srest := hd
      have hseg0 : SegIn s0 t.data := by
        have := splitRun_SegIn isDash ((reSplitPipe t.data).headD []) (some 1) false [] [] s0
          (by rw [hd2]; simp)
        simp only [List.reverse_nil, List.nil_append] at this
        exact SegIn_trans this hmain
      cases srest with
      | nil =>
        refine ⟨[], s0, SegIn_nil _, hseg0, ?_⟩
        show (match reSplitDash1 ((reSplitPipe t.data).headD []) with
          | p0 :: p1 :: _ => (pyStrip p0, pyStrip p1)
          | [p0] => ("", pyStrip p0)
          | [] => ("", "")) = ((pyStrip [] : String), pyStrip s0)
        rw [hd]
        rfl
      | cons s1 srest2 =>
        have hseg1 : SegIn s1 t.data := by
          have := splitRun_SegIn isDash ((reSplitPipe t.data).headD []) (some 1) false [] [] s1
            (by rw [hd2]; simp)
          simp only [List.reverse_nil, List.nil_append] at this
          exact SegIn_trans this hmain
        refine ⟨s0, s1, hseg0, hseg1, ?_⟩
        show (match reSplitDash1 ((reSplitPipe t.data).headD []) with
          | p0 :: p1 :: _ => (pyStrip p0, pyStrip p1)
          | [p0] => ("", pyStrip p0)
          | [] => ("", "")) = (pyStrip s0, pyStrip s1)
        rw [hd]
  · exact ⟨[], [], SegIn_nil _, SegIn_nil _, rfl⟩

/-- The dash-split step of the fallback turns a list of segments of the
title into a pair of stripped segments of the title. -/
lemma fallbackCore_shape (cps : List (List Char)) (t : String)
    (hall : ∀ y ∈ cps, SegIn y t.data) :
    ∃ m1 m2, SegIn m1 t.data ∧ SegIn m2 t.data ∧
      fallbackCore cps = (pyStrip m1, pyStrip m2) := by
  have hmain : SegIn (cps.headD []) t.data := by
    cases cps with
    | nil => exact SegIn_nil _
    | cons q qs => exact hall q (by simp)
  cases hd : reSplitDash1 (cps.headD []) with
  | nil =>
    refine ⟨[], [], SegIn_nil _, SegIn_nil _, ?_⟩
    show (match reSplitDash1 (cps.headD []) with
      | s0 :: s1 :: _ => (pyStrip s0, pyStrip s1)
      | [s0] => ("", pyStrip s0)
      | [] => ("", "")) = ((pyStrip [] : String), (pyStrip [] : String))
    rw [hd]
    rfl
  | cons s0 srest =>
    have hd2 : splitRun isDash (some 1) false [] [] (cps.headD []) = s0 :: srest := hd
    have hseg0 : SegIn s0 t.data := by
      have := splitRun_SegIn isDash (cps.headD []) (some 1) false [] [] s0 (by rw [hd2]; simp)
      simp only [List.reverse_nil, List.nil_append] at this
      exact SegIn_trans this hmain
    cases srest with
    | nil =>
      refine ⟨[], s0, SegIn_nil _, hseg0, ?_⟩
      show (match reSplitDash1 (cps.headD []) with
        | s0 :: s1 :: _ => (pyStrip s0, pyStrip s1)
        | [s0] => ("", pyStrip s0)
        | [] => ("", "")) = ((pyStrip [] : String), pyStrip s0)
      rw [hd]
      rfl
    | cons s1 srest2 =>
      have hseg1 : SegIn s1 t.data := by
        have := splitRun_SegIn isDash (cps.headD []) (some 1) false [] [] s1 (by rw [hd2]; simp)
        simp only [List.reverse_nil, List.nil_append] at this
        exact SegIn_trans this hmain
      refine ⟨s0, s1, hseg0, hseg1, ?_⟩
      show (match reSplitDash1 (cps.headD []) with
        | s0 :: s1 :: _ => (pyStrip s0, pyStrip s1)
        | [s0] => ("", pyStrip s0)
        | [] => ("", "")) = (pyStrip s0, pyStrip s1)
      rw [hd]

/-- The fallback parser's output pair consists of stripped contiguous
segments of the title. -/
lemma fallbackParse_shape (t : String) :
    ∃ m1 m2, SegIn m1 t.data ∧ SegIn m2 t.data ∧
      fallbackParse t = (pyStrip m1, pyStrip m2) := by
  have hpipe : ∀ seg ∈ reSplitPipe t.data, SegIn seg t.data := by
    intro seg hseg
    have := splitRun_SegIn isPipe t.data none false [] [] seg hseg
    simpa using this
  have hall : ∀ y ∈ (if (((reSplitPipe t.data).filter
        (fun p => !isPlatformPart (String.mk p))).map stripL).isEmpty
      then (reSplitPipe t.data).map stripL
      else ((reSplitPipe t.data).filter (fun p => !isPlatformPart (String.mk p))).map stripL),
      SegIn y t.data := by
    intro y hy
    split_ifs at hy with hcond
    · obtain ⟨seg, hsegmem, hyeq⟩ := List.mem_map.mp hy
      rw [← hyeq]
      exact SegIn_trans (stripL_SegIn seg) (hpipe seg hsegmem)
    · obtain ⟨seg, hsegmem, hyeq⟩ := List.mem_map.mp hy
      rw [← hyeq]
      exact SegIn_trans (stripL_SegIn seg) (hpipe seg (List.mem_of_mem_filter hsegmem))
  exact fallbackCore_shape _ t hall

/-- C9: for every successful extraction, the company and position
fields are each `strip()` applied to a contiguous segment of the title
(the empty field arising as the strip of the empty segment), and
consequently carry no leading or trailing whitespace (`strip` fixes
them). -/
theorem C9_theorem (url title text : String) (r : JobMeta)
    (h : extract_job_metadata url title text = .ok r) :
    (∃ m, SegIn m title.data ∧ r.company = pyStrip m) ∧
    (∃ m, SegIn m title.data ∧ r.position = pyStrip m) ∧
    stripL r.company.data = r.company.data ∧
    stripL r.position.data = r.position.data := by
  obtain ⟨n, -, hr⟩ := extract_ok_inv h
  have hpair : ∃ m1 m2, SegIn m1 title.data ∧ SegIn m2 title.data ∧
      (if title = "" then (("", "") : String × String)
       else parseTitle (detectPlatform (normalizeDomain n)) title) = (pyStrip m1, pyStrip m2) := by
    by_cases ht : title = ""
    · refine ⟨[], [], SegIn_nil _, SegIn_nil _, ?_⟩
      rw [if_pos ht]
      rfl
    · rw [if_neg ht]
      unfold parseTitle
      by_cases hb : (bespokeParse (detectPlatform (normalizeDomain n)) title).1 = "" ∧
          (bespokeParse (detectPlatform (normalizeDomain n)) title).2 = ""
      · rw [if_pos hb]
        exact fallbackParse_shape title
      · rw [if_neg hb]
        exact bespokeParse_shape _ title
  obtain ⟨m1, m2, hseg1, hseg2, hpp⟩ := hpair
  have hcmp : r.company = pyStrip m1 := by rw [hr]; exact congrArg Prod.fst hpp
  have hpos : r.position = pyStrip m2 := by rw [hr]; exact congrArg Prod.snd hpp
  refine ⟨⟨m1, hseg1, hcmp⟩, ⟨m2, hseg2, hpos⟩, ?_, ?_⟩
  · rw [hcmp]
    show stripL (stripL m1) = stripL m1
    exact stripL_idem m1
  · rw [hpos]
    show stripL (stripL m2) = stripL m2
    exact stripL_idem m2

/-- Witness for C9 at the concrete LinkedIn example. -/
theorem C9_witness :
    (∃ m, SegIn m "Senior Backend Engineer at Acme Corp | LinkedIn".data ∧
      ("Acme Corp" : String) = pyStrip m) ∧
    (∃ m, SegIn m "Senior Backend Engineer at Acme Corp | LinkedIn".data ∧
      ("Senior Backend Engineer" : String) = pyStrip m) ∧
    stripL ("Acme Corp" : String).data = ("Acme Corp" : String).data ∧
    stripL ("Senior Backend Engineer" : String).data = ("Senior Backend Engineer" : String).data :=
  C9_theorem "https://www.linkedin.com/jobs/view/123"
    "Senior Backend Engineer at Acme Corp | LinkedIn" ""
    ⟨"LinkedIn", "Acme Corp", "Senior Backend Engineer",
      "https://www.linkedin.com/jobs/view/123"⟩ rfl
